import Mathlib

/-!
Verification of the quill variables module (`src/variables.ts`).

The development shallowly embeds the core of the module:
the catalog data model (`VarNode` / `VariableTree`), the tree flattener
(`collectLeaves`), the token formatter (`formatToken`), the insertion
planner (`_insertAt` / `insert`), and the menu controller
(`renderMenu`, `updateVariables`, `onMenuKeydown`, `closeMenu`).
JavaScript `Record` objects are modelled as association lists in key
insertion order (`Object.entries` iterates string keys in insertion
order); the host editor buffer is modelled as a list of characters and
the host mutation calls as an explicit effect trace.
-/

namespace QuillVars

/-- The `group` metadata of a flattened item:
`{ key: string; title: string }` in the source. -/
structure Group where
  key : String
  title : String
deriving DecidableEq, Repr

/-- `LeafItem` from the source: a flattened, insertable item. -/
structure LeafItem where
  path : String
  title : String
  description : Option String
  group : Option Group
deriving DecidableEq, Repr

/-- `VarNode` from the source: `title`, optional `description`, optional
`children` mapping.  The children mapping is an association list in key
insertion order. -/
inductive VarNode : Type where
  | mk (title : String) (description : Option String)
      (children : Option (List (String × VarNode)))

/-- `VariableTree = Record<string, VarNode>` modelled as an association
list in key insertion order. -/
abbrev VariableTree := List (String × VarNode)

def VarNode.title : VarNode → String
  | .mk t _ _ => t

def VarNode.description : VarNode → Option String
  | .mk _ d _ => d

def VarNode.children : VarNode → Option (List (String × VarNode))
  | .mk _ _ c => c

instance : Inhabited VarNode := ⟨VarNode.mk "" none none⟩

/-- `node.children && Object.keys(node.children).length > 0`. -/
def hasChildren (n : VarNode) : Bool :=
  match n with
  | .mk _ _ (some cs) => !cs.isEmpty
  | .mk _ _ none => false

/-- `parts.join('.')` on a JavaScript array. -/
def joinDot : List String → String
  | [] => ""
  | [a] => a
  | a :: b :: rest => a ++ "." ++ joinDot (b :: rest)

/-- `node.title || key`: the empty string is the only falsy string, so a
node with an empty `title` falls back to its key. -/
def titleOrKey (key title : String) : String :=
  if title = "" then key else title

/-- `Variables.collectLeaves`, the tree flattener.  `inc` is
`options.includeParentNodes`, `pfx` the accumulated path segments and
`parent` the enclosing group, exactly as in the source. -/
def collectLeaves (inc : Bool) (tree : VariableTree) (pfx : List String)
    (parent : Option Group) : List LeafItem :=
  match tree with
  | [] => []
  | (key, VarNode.mk title descr children) :: rest =>
    let pathParts := pfx ++ [key]
    let path := joinDot pathParts
    let t := titleOrKey key title
    (match children with
     | some cs =>
       if cs.isEmpty then [⟨path, t, descr, parent⟩]
       else
         (if inc then [⟨path, t, descr, parent⟩] else []) ++
           collectLeaves inc cs pathParts (some ⟨path, t⟩)
     | none => [⟨path, t, descr, parent⟩]) ++
      collectLeaves inc rest pfx parent

/-- `Variables.getAvailableVariables`. -/
def getAvailableVariables (inc : Bool) (tree : VariableTree) : List String :=
  (collectLeaves inc tree [] none).map (fun i => i.path)

/-- The token policy: `{ open?: string; close?: string }` or a formatting
function (`open` is a Lean keyword, so the pair fields are `openStr` and
`closeStr`). -/
inductive TokenPolicy : Type where
  | pair (openStr closeStr : Option String)
  | fn (f : String → String)

/-- `DEFAULTS.token = { open: '{{', close: '}}' }`. -/
def defaultToken : TokenPolicy := .pair (some "\x7b\x7b") (some "\x7d\x7d")

/-- `opts.token ?? DEFAULTS.token` in the constructor. -/
def resolveToken (t : Option TokenPolicy) : TokenPolicy :=
  t.getD defaultToken

/-- `Variables.formatToken`. -/
def formatToken (t : TokenPolicy) (path : String) : String :=
  match t with
  | .fn f => f path
  | .pair o c => (o.getD "\x7b\x7b") ++ path ++ (c.getD "\x7d\x7d")

/-- The spec's concrete example catalog:
`{ user: { title: "User", children: { first_name: { title: "First Name" } } } }`. -/
def tree1 : VariableTree :=
  [("user", VarNode.mk "User" none
    (some [("first_name", VarNode.mk "First Name" none none)]))]

example :
    collectLeaves false tree1 [] none =
      [⟨"user.first_name", "First Name", none, some ⟨"user", "User"⟩⟩] := by
  simp [tree1, collectLeaves, joinDot, titleOrKey]

/-- C4 The token formatter with a static pair policy returns exactly
`open ++ address ++ close`, for all strings including empty ones; with no
policy supplied, the defaults `{{` and `}}` are used. -/
theorem formatToken_round_trip (a o c : String) :
    formatToken (.pair (some o) (some c)) a = o ++ a ++ c ∧
    formatToken (resolveToken none) a = "\x7b\x7b" ++ a ++ "\x7d\x7d" := by
  constructor
  · simp [formatToken, String.append_assoc]
  · simp [formatToken, resolveToken, defaultToken, String.append_assoc]

/-- `EditorRange = { index: number; length: number }`. -/
structure EditorRange where
  index : Nat
  length : Nat
deriving DecidableEq, Repr

/-- `quill.deleteText(index, len)` on a plain-text buffer. -/
def deleteText (doc : List Char) (index len : Nat) : List Char :=
  doc.take index ++ doc.drop (index + len)

/-- `quill.getText(index, len)` on a plain-text buffer. -/
def getText (doc : List Char) (index len : Nat) : List Char :=
  (doc.drop index).take len

/-- `quill.insertText(index, text)` on a plain-text buffer. -/
def insertText (doc : List Char) (index : Nat) (text : List Char) : List Char :=
  doc.take index ++ text ++ doc.drop index

/-- JavaScript `\w` without the unicode flag: `[A-Za-z0-9_]`. -/
def wordChar (c : Char) : Bool :=
  c.isAlpha || c.isDigit || c = '_'

/-- The test `/\w|\}/` applied to a single character. -/
def wordOrCloseBrace (c : Char) : Bool :=
  wordChar c || c = '\x7d'

/-- The test `/\w|\{/` applied to a single character. -/
def wordOrOpenBrace (c : Char) : Bool :=
  wordChar c || c = '\x7b'

/-- `Variables._insertAt`: delete the selected range, decide smart
spacing from the characters adjacent to the insertion point, insert, and
return the new buffer together with the collapsed cursor position
`range.index + text.length` set by `setSelection`. -/
def _insertAt (doc : List Char) (range : EditorRange) (tokenText : List Char) :
    List Char × Nat :=
  let afterDelete := deleteText doc range.index range.length
  let before := if range.index > 0 then getText afterDelete (range.index - 1) 1 else []
  let after := getText afterDelete range.index 1
  let needsLeadingSpace := before.any wordOrCloseBrace
  let needsTrailingSpace := after.any wordOrOpenBrace
  let text1 := if needsLeadingSpace then ' ' :: tokenText else tokenText
  let text2 := if needsTrailingSpace then text1 ++ [' '] else text1
  (insertText afterDelete range.index text2, range.index + text2.length)

/-- One call against the host editor surface. -/
inductive Effect : Type where
  | getSelection
  | focus
  | deleteText (index len : Nat)
  | insertText (index : Nat) (text : List Char)
  | setSelection (index len : Nat)
deriving DecidableEq, Repr

/-- The sequence of host calls `Variables._insertAt` performs. -/
def _insertAtEffects (doc : List Char) (range : EditorRange)
    (tokenText : List Char) : List Effect :=
  let afterDelete := deleteText doc range.index range.length
  let before := if range.index > 0 then getText afterDelete (range.index - 1) 1 else []
  let after := getText afterDelete range.index 1
  let needsLeadingSpace := before.any wordOrCloseBrace
  let needsTrailingSpace := after.any wordOrOpenBrace
  let text1 := if needsLeadingSpace then ' ' :: tokenText else tokenText
  let text2 := if needsTrailingSpace then text1 ++ [' '] else text1
  [Effect.deleteText range.index range.length,
   Effect.insertText range.index text2,
   Effect.setSelection (range.index + text2.length) 0]

/-- `Variables.insert` as a host-call trace.  `sel1` is what the first
`quill.getSelection(true)` reports and `sel2` what the re-query after
`quill.focus()` reports. -/
def insert (sel1 sel2 : Option EditorRange) (doc : List Char)
    (tokenText : List Char) : List Effect :=
  match sel1 with
  | none =>
    Effect.getSelection :: Effect.focus ::
      (match sel2 with
       | none => [Effect.getSelection]
       | some r2 => Effect.getSelection :: _insertAtEffects doc r2 tokenText)
  | some r => Effect.getSelection :: _insertAtEffects doc r tokenText

/-- Buffer-mutating host calls. -/
def isMutation : Effect → Bool
  | .deleteText _ _ => true
  | .insertText _ _ => true
  | .setSelection _ _ => true
  | _ => false

lemma take_one_drop_any (p : Char → Bool) (l : List Char) (i : Nat) :
    ((l.drop i).take 1).any p = (l.get? i).any p := by
  induction l generalizing i with
  | nil => simp
  | cons a l ih =>
    cases i with
    | zero => simp [Option.any]
    | succ j => simpa using ih j

/-- C5 The insertion planner deletes the selected range first, prepends a
space exactly when the character immediately before the index (absent
when the index is 0) is a word character or closing brace, appends a
space exactly when the character at the index after the deletion is a
word character or opening brace, and otherwise inserts the token
verbatim; the cursor lands right after the inserted text. -/
theorem insertAt_smart_spacing (doc : List Char) (r : EditorRange)
    (tok : List Char) :
    _insertAt doc r tok =
      (insertText (deleteText doc r.index r.length) r.index
        ((if ((if r.index = 0 then none
               else (deleteText doc r.index r.length).get? (r.index - 1)).any
                 wordOrCloseBrace) then [' '] else []) ++ tok ++
         (if (((deleteText doc r.index r.length).get? r.index).any
                 wordOrOpenBrace) then [' '] else [])),
       r.index +
        ((if ((if r.index = 0 then none
               else (deleteText doc r.index r.length).get? (r.index - 1)).any
                 wordOrCloseBrace) then [' '] else []) ++ tok ++
         (if (((deleteText doc r.index r.length).get? r.index).any
                 wordOrOpenBrace) then [' '] else [])).length) := by
  have hb : ((if r.index > 0 then
          getText (deleteText doc r.index r.length) (r.index - 1) 1
        else []).any wordOrCloseBrace) =
      ((if r.index = 0 then none
        else (deleteText doc r.index r.length).get? (r.index - 1)).any
          wordOrCloseBrace) := by
    by_cases h : r.index = 0
    · simp [h, Option.any]
    · simp [h, Nat.pos_of_ne_zero h, getText, take_one_drop_any]
  have ha : ((getText (deleteText doc r.index r.length) r.index 1).any
        wordOrOpenBrace) =
      (((deleteText doc r.index r.length).get? r.index).any wordOrOpenBrace) := by
    simp [getText, take_one_drop_any]
  simp only [_insertAt]
  rw [hb, ha]
  split <;> split <;> (try split) <;> simp [Prod.ext_iff]

/-- C6 `insert` with no active selection performs exactly one recovery
(one `focus`, one re-query, two selection queries in total) and, if the
selection is still unavailable, performs no buffer mutation at all;
whenever a selection is available (initially, or only after recovery),
the three-call insertion sequence is issued.  The model is a total
function, so no error is raised in any case. -/
theorem insert_selection_recovery (doc tok : List Char)
    (sel2 : Option EditorRange) (r : EditorRange) :
    ((insert none none doc tok).filter isMutation = [] ∧
     (insert none none doc tok).count Effect.focus = 1 ∧
     (insert none none doc tok).count Effect.getSelection = 2) ∧
    (insert none (some r) doc tok =
      [Effect.getSelection, Effect.focus, Effect.getSelection] ++
        _insertAtEffects doc r tok) ∧
    (insert (some r) sel2 doc tok =
      Effect.getSelection :: _insertAtEffects doc r tok) ∧
    (∃ text2, _insertAtEffects doc r tok =
      [Effect.deleteText r.index r.length,
       Effect.insertText r.index text2,
       Effect.setSelection (r.index + text2.length) 0]) := by
  refine ⟨⟨rfl, rfl, rfl⟩, rfl, rfl, ⟨_, rfl⟩⟩

/-- Where keyboard focus currently sits: the toolbar trigger button, the
menu item at a given index of `itemsEls`, or anywhere else (e.g. the
document body after the focused element was removed). -/
inductive FocusTarget : Type where
  | button
  | item (i : Nat)
  | elsewhere
deriving DecidableEq, Repr

/-- The controller state: the catalog (`options.variables` in the
source; `variables` is reserved in Lean) and `includeParentNodes`,
the rendered item buttons `itemsEls`, the `menuEl.hidden` flag and the
element holding keyboard focus.  `hidden = true` is the `Closed` state,
`hidden = false` the `Open` state. -/
structure MenuState where
  vars : VariableTree
  includeParentNodes : Bool
  itemsEls : List LeafItem
  hidden : Bool
  focus : FocusTarget

/-- The fold performed by the `groups` Map-building loop in
`renderMenu`: group keys in order of first discovery. -/
def groupKeys (items : List LeafItem) : List String :=
  items.foldl
    (fun acc it =>
      match it.group with
      | none => acc
      | some g => if acc.contains g.key then acc else acc ++ [g.key]) []

/-- The items pushed for one group section: the items whose group key
matches, in their original order. -/
def groupBucket (items : List LeafItem) (k : String) : List LeafItem :=
  items.filter (fun it =>
    match it.group with
    | some g => g.key == k
    | none => false)

/-- The order in which `renderMenu` creates the item buttons (and hence
fills `itemsEls`): first all ungrouped items, then one section per group
in first-discovery order. -/
def renderOrder (items : List LeafItem) : List LeafItem :=
  items.filter (fun it => it.group.isNone) ++
    (groupKeys items).flatMap (groupBucket items)

/-- `Variables.renderMenu`: clears the menu surface and rebuilds
`itemsEls` from the current catalog.  Clearing `innerHTML` removes the
focused element if it was a menu item, which drops keyboard focus to the
document body; the `hidden` flag is not touched. -/
def renderMenu (st : MenuState) : MenuState :=
  { st with
    itemsEls := renderOrder (collectLeaves st.includeParentNodes st.vars [] none),
    focus :=
      match st.focus with
      | .item _ => .elsewhere
      | f => f }

/-- `Variables.updateVariables`: replace the catalog wholesale and
rebuild the menu DOM. -/
def updateVariables (v : VariableTree) (st : MenuState) : MenuState :=
  renderMenu { st with vars := v }

/-- `Variables.closeMenu`. -/
def closeMenu (st : MenuState) : MenuState :=
  if st.hidden then st else { st with hidden := true, focus := .button }

/-- `Variables.openMenu`: unhide and focus the first item button, if
there is one. -/
def openMenu (st : MenuState) : MenuState :=
  { st with
    hidden := false
    focus := if st.itemsEls.isEmpty then st.focus else .item 0 }

/-- The keys `onMenuKeydown` reacts to; `other` stands for every other
key, which the handler ignores. -/
inductive MenuKey : Type where
  | escape
  | arrowDown
  | arrowUp
  | homeKey
  | endKey
  | other
deriving DecidableEq, Repr

/-- `Variables.onMenuKeydown`.  `i` is `items.indexOf(activeElement)`,
`-1` when the focused element is not one of the item buttons.  The index
arithmetic is over JavaScript numbers: when the list is empty,
`(i ± 1 + 0) % 0` is `NaN` and `items[NaN]` is `undefined`, so
`next?.focus()` does nothing; the optional-chaining lookup is modelled by
`List.get?`.  (Lean's `Int.emod 0` returns the dividend where JavaScript
returns `NaN`; both make the lookup miss an empty list, and for a
positive modulus both agree because the dividend is nonnegative except
for `(-1) % 1`, where `-0` and `0` index the same element.) -/
def onMenuKeydown (key : MenuKey) (st : MenuState) : MenuState :=
  let items := st.itemsEls
  let n : Int := items.length
  let i : Int :=
    match st.focus with
    | .item j => if j < items.length then (j : Int) else -1
    | _ => -1
  match key with
  | .escape => closeMenu st
  | .arrowDown =>
    let idx := ((i + 1 + n) % n).toNat
    match items.get? idx with
    | some _ => { st with focus := .item idx }
    | none => st
  | .arrowUp =>
    let idx := ((i - 1 + n) % n).toNat
    match items.get? idx with
    | some _ => { st with focus := .item idx }
    | none => st
  | .homeKey =>
    match items.get? 0 with
    | some _ => { st with focus := .item 0 }
    | none => st
  | .endKey =>
    match items.get? (items.length - 1) with
    | some _ => { st with focus := .item (items.length - 1) }
    | none => st
  | .other => st

/-- A controller in the `Open` state (menu shown, first item focused),
with the item list rendered from `tree1`. -/
def stOpen : MenuState :=
  ⟨tree1, false,
   [⟨"user.first_name", "First Name", none, some ⟨"user", "User"⟩⟩],
   false, .item 0⟩

/-- C1 counterexample: a controller in the `Open` state receiving a
catalog update does NOT end in the `Closed` state — `updateVariables`
only rebuilds the menu DOM and never touches the `hidden` flag, so the
menu stays visible. -/
theorem updateVariables_not_closed_cex :
    ¬ (updateVariables [] stOpen).hidden = true := by decide

/-- C1 amended: a controller in the `Open` state receiving a catalog
update remains in the `Open` state; the catalog is replaced wholesale
and the item list is rebuilt from the new catalog (stale focus is
handled by the rebuild, not by a forced close). -/
theorem updateVariables_keeps_open (v : VariableTree) (st : MenuState)
    (hopen : st.hidden = false) :
    (updateVariables v st).hidden = false ∧
    (updateVariables v st).vars = v ∧
    (updateVariables v st).includeParentNodes = st.includeParentNodes ∧
    (updateVariables v st).itemsEls =
      renderOrder (collectLeaves st.includeParentNodes v [] none) :=
  ⟨hopen, rfl, rfl, rfl⟩

/-- C1 witness: the amended statement evaluated on a concrete open
controller. -/
theorem updateVariables_keeps_open_witness :
    stOpen.hidden = false ∧
    ((updateVariables [] stOpen).hidden = false ∧
     (updateVariables [] stOpen).vars = [] ∧
     (updateVariables [] stOpen).includeParentNodes = stOpen.includeParentNodes ∧
     (updateVariables [] stOpen).itemsEls =
       renderOrder (collectLeaves stOpen.includeParentNodes [] [] none)) :=
  ⟨rfl, updateVariables_keeps_open [] stOpen rfl⟩

/-- C9 With a non-empty item list in the `Open` state: `ArrowDown` on the
last item wraps focus to the first, `ArrowUp` on the first item wraps
focus to the last, on a single-item list both keep focus on that item,
and `Home`/`End` jump to the first/last item. -/
theorem menu_wraparound (st : MenuState) (hopen : st.hidden = false)
    (hpos : 0 < st.itemsEls.length) :
    (st.focus = .item (st.itemsEls.length - 1) →
      onMenuKeydown .arrowDown st = { st with focus := .item 0 }) ∧
    (st.focus = .item 0 →
      onMenuKeydown .arrowUp st =
        { st with focus := .item (st.itemsEls.length - 1) }) ∧
    (st.itemsEls.length = 1 → st.focus = .item 0 →
      onMenuKeydown .arrowDown st = { st with focus := .item 0 } ∧
      onMenuKeydown .arrowUp st = { st with focus := .item 0 }) ∧
    onMenuKeydown .homeKey st = { st with focus := .item 0 } ∧
    onMenuKeydown .endKey st =
      { st with focus := .item (st.itemsEls.length - 1) } := by
  have hne : st.itemsEls ≠ [] := List.ne_nil_of_length_pos hpos
  have hlast : st.itemsEls.length - 1 < st.itemsEls.length := Nat.sub_lt hpos one_pos
  obtain ⟨x0, hx0⟩ : ∃ x, st.itemsEls.get? 0 = some x := by
    cases h : st.itemsEls.get? 0 with
    | some x => exact ⟨x, rfl⟩
    | none => exact absurd (List.get?_eq_none.mp h) (by omega)
  obtain ⟨xl, hxl⟩ : ∃ x, st.itemsEls.get? (st.itemsEls.length - 1) = some x := by
    cases h : st.itemsEls.get? (st.itemsEls.length - 1) with
    | some x => exact ⟨x, rfl⟩
    | none => exact absurd (List.get?_eq_none.mp h) (by omega)
  refine ⟨?_, ?_, ?_, ?_, ?_⟩
  · intro hf
    have harith :
        ((((st.itemsEls.length - 1 : Nat) : Int) + 1 + (st.itemsEls.length : Int)) %
            (st.itemsEls.length : Int)).toNat = 0 := by
      have h2 : (((st.itemsEls.length - 1 : Nat) : Int) + 1 + (st.itemsEls.length : Int)) =
          2 * (st.itemsEls.length : Int) := by omega
      rw [h2, Int.mul_emod_left]
      rfl
    simp only [onMenuKeydown, hf, if_pos hlast, harith, hx0]
  · intro hf
    have harith :
        ((((0 : Nat) : Int) - 1 + (st.itemsEls.length : Int)) %
            (st.itemsEls.length : Int)).toNat = st.itemsEls.length - 1 := by
      have h2 : (((0 : Nat) : Int) - 1 + (st.itemsEls.length : Int)) %
          (st.itemsEls.length : Int) = (st.itemsEls.length : Int) - 1 := by
        apply Int.emod_eq_of_lt <;> omega
      rw [h2]
      omega
    simp only [onMenuKeydown, hf, if_pos hpos, harith, hxl]
  · intro h1 hf
    constructor
    · have harith :
          ((((0 : Nat) : Int) + 1 + (st.itemsEls.length : Int)) %
              (st.itemsEls.length : Int)).toNat = 0 := by
        rw [h1]
        rfl
      simp only [onMenuKeydown, hf, if_pos hpos, harith, hx0]
    · have harith :
          ((((0 : Nat) : Int) - 1 + (st.itemsEls.length : Int)) %
              (st.itemsEls.length : Int)).toNat = 0 := by
        rw [h1]
        rfl
      simp only [onMenuKeydown, hf, if_pos hpos, harith, hx0]
  · simp only [onMenuKeydown, hx0]
  · simp only [onMenuKeydown, hxl]

/-- C9 witness: wraparound navigation evaluated on a concrete one-item
open menu. -/
theorem menu_wraparound_witness :
    stOpen.hidden = false ∧ 0 < stOpen.itemsEls.length ∧
    ((stOpen.focus = .item (stOpen.itemsEls.length - 1) →
       onMenuKeydown .arrowDown stOpen = { stOpen with focus := .item 0 }) ∧
     (stOpen.focus = .item 0 →
       onMenuKeydown .arrowUp stOpen =
         { stOpen with focus := .item (stOpen.itemsEls.length - 1) }) ∧
     (stOpen.itemsEls.length = 1 → stOpen.focus = .item 0 →
       onMenuKeydown .arrowDown stOpen = { stOpen with focus := .item 0 } ∧
       onMenuKeydown .arrowUp stOpen = { stOpen with focus := .item 0 }) ∧
     onMenuKeydown .homeKey stOpen = { stOpen with focus := .item 0 } ∧
     onMenuKeydown .endKey stOpen =
       { stOpen with focus := .item (stOpen.itemsEls.length - 1) }) :=
  ⟨rfl, by decide, menu_wraparound stOpen rfl (by decide)⟩

/-- C10 On an empty item list in the `Open` state, every navigation key
is a total no-op: the modular index computation misses the empty list
(`items[NaN]` is `undefined` in the source, `List.get?` returns `none`
here), no focus change happens and no exception is raised (the model is
a total function). -/
theorem menu_keydown_empty_noop (st : MenuState) (hopen : st.hidden = false)
    (hempty : st.itemsEls = []) :
    onMenuKeydown .arrowDown st = st ∧
    onMenuKeydown .arrowUp st = st ∧
    onMenuKeydown .homeKey st = st ∧
    onMenuKeydown .endKey st = st := by
  refine ⟨?_, ?_, ?_, ?_⟩ <;> simp [onMenuKeydown, hempty]

/-- C10 witness: the empty-list no-op evaluated on a concrete open
controller with an empty catalog. -/
theorem menu_keydown_empty_noop_witness :
    (⟨[], false, [], false, .button⟩ : MenuState).hidden = false ∧
    (⟨[], false, [], false, .button⟩ : MenuState).itemsEls = [] ∧
    (onMenuKeydown .arrowDown ⟨[], false, [], false, .button⟩ =
       (⟨[], false, [], false, .button⟩ : MenuState) ∧
     onMenuKeydown .arrowUp ⟨[], false, [], false, .button⟩ =
       (⟨[], false, [], false, .button⟩ : MenuState) ∧
     onMenuKeydown .homeKey ⟨[], false, [], false, .button⟩ =
       (⟨[], false, [], false, .button⟩ : MenuState) ∧
     onMenuKeydown .endKey ⟨[], false, [], false, .button⟩ =
       (⟨[], false, [], false, .button⟩ : MenuState)) :=
  ⟨rfl, rfl, menu_keydown_empty_noop ⟨[], false, [], false, .button⟩ rfl rfl⟩

/-- The group key of an item, when it has one. -/
def gkey (it : LeafItem) : Option String := it.group.map Group.key

/-- Every ungrouped item comes before every grouped item. -/
def UngroupedFirst (l : List LeafItem) : Prop :=
  ∃ u g, l = u ++ g ∧ (∀ it ∈ u, it.group = none) ∧ (∀ it ∈ g, it.group ≠ none)

/-- For every group key, the items carrying it form one contiguous
block. -/
def GroupsContiguous (l : List LeafItem) : Prop :=
  ∀ k : String, ∃ l1 l2 l3, l = l1 ++ l2 ++ l3 ∧
    (∀ it ∈ l2, gkey it = some k) ∧
    (∀ it ∈ l1, gkey it ≠ some k) ∧
    (∀ it ∈ l3, gkey it ≠ some k)

/-- A catalog whose depth-first flatten output has a grouped item before
an ungrouped one: `{ a: { title: "A", children: { x: { title: "X" } } },
b: { title: "B" } }`. -/
def tree2 : VariableTree :=
  [("a", VarNode.mk "A" none (some [("x", VarNode.mk "X" none none)])),
   ("b", VarNode.mk "B" none none)]

/-- C2 counterexample: in the raw `collectLeaves` output for `tree2` the
grouped item `a.x` precedes the ungrouped item `b`, so ungrouped items do
NOT precede all grouped items in flatten output (the menu ordering is
only established afterwards by `renderMenu`). -/
theorem collectLeaves_not_ungrouped_first_cex :
    ¬ UngroupedFirst (collectLeaves false tree2 [] none) := by
  have hl : collectLeaves false tree2 [] none =
      [⟨"a.x", "X", none, some ⟨"a", "A"⟩⟩, ⟨"b", "B", none, none⟩] := by
    simp [tree2, collectLeaves, joinDot, titleOrKey]
  rw [hl]
  rintro ⟨u, g, heq, hu, hg⟩
  cases u with
  | nil =>
    simp only [List.nil_append] at heq
    exact hg ⟨"b", "B", none, none⟩ (by rw [← heq]; simp) rfl
  | cons i u2 =>
    rw [List.cons_append] at heq
    injection heq with h1 h2
    have := hu i (List.mem_cons_self i u2)
    rw [← h1] at this
    simp at this

/-- The `groups` Map-building fold of `renderMenu`, generalized over the
starting accumulator. -/
def gkFold (acc : List String) (items : List LeafItem) : List String :=
  items.foldl
    (fun acc it =>
      match it.group with
      | none => acc
      | some g => if acc.contains g.key then acc else acc ++ [g.key]) acc

lemma groupKeys_eq_gkFold (items : List LeafItem) :
    groupKeys items = gkFold [] items := rfl

lemma gkFold_append (acc : List String) (l1 l2 : List LeafItem) :
    gkFold acc (l1 ++ l2) = gkFold (gkFold acc l1) l2 := by
  simp [gkFold, List.foldl_append]

lemma gkFold_cons_none {it : LeafItem} (h : it.group = none)
    (acc : List String) (l : List LeafItem) :
    gkFold acc (it :: l) = gkFold acc l := by
  simp [gkFold, h]

lemma gkFold_cons_some {it : LeafItem} {g : Group} (h : it.group = some g)
    (acc : List String) (l : List LeafItem) :
    gkFold acc (it :: l) =
      gkFold (if acc.contains g.key then acc else acc ++ [g.key]) l := by
  simp only [gkFold, List.foldl_cons, h]

lemma mem_gkFold (items : List LeafItem) :
    ∀ (acc : List String) (k : String),
      k ∈ gkFold acc items ↔ k ∈ acc ∨ ∃ it ∈ items, gkey it = some k := by
  induction items with
  | nil => simp [gkFold]
  | cons it rest ih =>
    intro acc k
    cases hgr : it.group with
    | none =>
      rw [gkFold_cons_none hgr]
      simp only [ih]
      constructor
      · rintro (h | h)
        · exact Or.inl h
        · exact Or.inr (by obtain ⟨x, hx, hk⟩ := h; exact ⟨x, List.mem_cons_of_mem _ hx, hk⟩)
      · rintro (h | ⟨x, hx, hk⟩)
        · exact Or.inl h
        · rcases List.mem_cons.mp hx with rfl | hx2
          · rw [gkey, hgr] at hk; simp at hk
          · exact Or.inr ⟨x, hx2, hk⟩
    | some g =>
      by_cases hc : acc.contains g.key
      · rw [gkFold_cons_some hgr, if_pos hc]
        simp only [ih]
        constructor
        · rintro (h | h)
          · exact Or.inl h
          · exact Or.inr (by obtain ⟨x, hx, hk⟩ := h; exact ⟨x, List.mem_cons_of_mem _ hx, hk⟩)
        · rintro (h | ⟨x, hx, hk⟩)
          · exact Or.inl h
          · rcases List.mem_cons.mp hx with rfl | hx2
            · rw [gkey, hgr] at hk
              simp at hk
              exact Or.inl (hk ▸ List.mem_of_elem_eq_true hc)
            · exact Or.inr ⟨x, hx2, hk⟩
      · rw [gkFold_cons_some hgr, if_neg hc]
        simp only [ih, List.mem_append, List.mem_singleton]
        constructor
        · rintro ((h | h) | h)
          · exact Or.inl h
          · exact Or.inr ⟨it, List.mem_cons_self it rest, by rw [gkey, hgr]; simp [h]⟩
          · exact Or.inr (by obtain ⟨x, hx, hk⟩ := h; exact ⟨x, List.mem_cons_of_mem _ hx, hk⟩)
        · rintro (h | ⟨x, hx, hk⟩)
          · exact Or.inl (Or.inl h)
          · rcases List.mem_cons.mp hx with rfl | hx2
            · rw [gkey, hgr] at hk
              simp at hk
              exact Or.inl (Or.inr hk.symm)
            · exact Or.inr ⟨x, hx2, hk⟩

lemma gkFold_nodup (items : List LeafItem) :
    ∀ acc : List String, acc.Nodup → (gkFold acc items).Nodup := by
  induction items with
  | nil => intro acc h; exact h
  | cons it rest ih =>
    intro acc hacc
    cases hgr : it.group with
    | none => rw [gkFold_cons_none hgr]; exact ih acc hacc
    | some g =>
      by_cases hc : acc.contains g.key
      · rw [gkFold_cons_some hgr, if_pos hc]; exact ih acc hacc
      · rw [gkFold_cons_some hgr, if_neg hc]
        refine ih _ ?_
        rw [List.nodup_append]
        refine ⟨hacc, List.nodup_singleton _, ?_⟩
        intro x hx hx2
        rw [List.mem_singleton] at hx2
        exact hc (List.elem_eq_true_of_mem (hx2 ▸ hx))

lemma gkFold_of_none (items : List LeafItem)
    (h : ∀ it ∈ items, it.group = none) :
    ∀ acc, gkFold acc items = acc := by
  induction items with
  | nil => intro acc; rfl
  | cons it rest ih =>
    intro acc
    rw [gkFold_cons_none (h it (List.mem_cons_self it rest))]
    exact ih (fun x hx => h x (List.mem_cons_of_mem _ hx)) acc

lemma gkFold_of_key_mem (items : List LeafItem) (k : String)
    (h : ∀ it ∈ items, gkey it = some k) :
    ∀ acc, k ∈ acc → gkFold acc items = acc := by
  induction items with
  | nil => intro acc _; rfl
  | cons it rest ih =>
    intro acc hk
    have hgr := h it (List.mem_cons_self it rest)
    rw [gkey] at hgr
    cases hgroup : it.group with
    | none => rw [hgroup] at hgr; simp at hgr
    | some g =>
      rw [hgroup] at hgr
      simp at hgr
      rw [gkFold_cons_some hgroup, if_pos (hgr ▸ List.elem_eq_true_of_mem hk)]
      exact ih (fun x hx => h x (List.mem_cons_of_mem _ hx)) acc hk

lemma gkFold_of_key_all (items : List LeafItem) (k : String)
    (h : ∀ it ∈ items, gkey it = some k) (hne : items ≠ []) :
    ∀ acc, k ∉ acc → gkFold acc items = acc ++ [k] := by
  cases items with
  | nil => exact absurd rfl hne
  | cons it rest =>
    intro acc hk
    have hgr := h it (List.mem_cons_self it rest)
    rw [gkey] at hgr
    cases hgroup : it.group with
    | none => rw [hgroup] at hgr; simp at hgr
    | some g =>
      rw [hgroup] at hgr
      simp at hgr
      rw [gkFold_cons_some hgroup,
        if_neg (fun hc => hk (hgr ▸ List.mem_of_elem_eq_true hc))]
      rw [hgr]
      exact gkFold_of_key_mem rest k
        (fun x hx => h x (List.mem_cons_of_mem _ hx)) (acc ++ [k]) (by simp)

lemma bucket_pred (it : LeafItem) (k : String) :
    ((match it.group with
      | some g => g.key == k
      | none => false) = true) ↔ gkey it = some k := by
  cases h : it.group <;> simp [gkey, h]

lemma mem_groupBucket {items : List LeafItem} {k : String} {it : LeafItem} :
    it ∈ groupBucket items k ↔ it ∈ items ∧ gkey it = some k := by
  rw [groupBucket, List.mem_filter, bucket_pred]

lemma gkFold_flatMap_buckets (items : List LeafItem) (ks : List String) :
    ∀ acc : List String, (acc ++ ks).Nodup →
      (∀ k ∈ ks, groupBucket items k ≠ []) →
      gkFold acc (ks.flatMap (groupBucket items)) = acc ++ ks := by
  induction ks with
  | nil => intro acc _ _; simp [gkFold]
  | cons k ks2 ih =>
    intro acc hnd hne
    have hknotacc : k ∉ acc := by
      rw [List.nodup_append] at hnd
      exact fun hk => hnd.2.2 hk (List.mem_cons_self k ks2)
    have hbk : gkFold acc (groupBucket items k) = acc ++ [k] :=
      gkFold_of_key_all (groupBucket items k) k
        (fun x hx => (mem_groupBucket.mp hx).2)
        (hne k (List.mem_cons_self k ks2)) acc hknotacc
    rw [List.flatMap_cons, gkFold_append, hbk]
    have : acc ++ k :: ks2 = (acc ++ [k]) ++ ks2 := by simp
    rw [this] at hnd
    rw [ih (acc ++ [k]) hnd (fun x hx => hne x (List.mem_cons_of_mem _ hx))]
    simp

lemma renderOrder_ungrouped_first (items : List LeafItem) :
    UngroupedFirst (renderOrder items) := by
  refine ⟨items.filter (fun it => it.group.isNone),
    (groupKeys items).flatMap (groupBucket items), rfl, ?_, ?_⟩
  · intro it hit
    have := (List.mem_filter.mp hit).2
    exact Option.isNone_iff_eq_none.mp this
  · intro it hit hnone
    obtain ⟨k, _, hb⟩ := List.mem_flatMap.mp hit
    have := (mem_groupBucket.mp hb).2
    rw [gkey, hnone] at this
    simp at this

lemma renderOrder_contiguous (items : List LeafItem) :
    GroupsContiguous (renderOrder items) := by
  intro k
  by_cases hk : k ∈ groupKeys items
  · obtain ⟨s1, s2, hs⟩ := List.mem_iff_append.mp hk
    have hnd : (groupKeys items).Nodup := by
      rw [groupKeys_eq_gkFold]
      exact gkFold_nodup items [] List.nodup_nil
    rw [hs] at hnd
    rw [List.nodup_append] at hnd
    have hks1 : k ∉ s1 := fun hmem => hnd.2.2 hmem (List.mem_cons_self k s2)
    have hks2 : k ∉ s2 := by
      have := hnd.2.1
      rw [List.nodup_cons] at this
      exact this.1
    refine ⟨items.filter (fun it => it.group.isNone) ++ s1.flatMap (groupBucket items),
      groupBucket items k, s2.flatMap (groupBucket items), ?_, ?_, ?_, ?_⟩
    · rw [renderOrder, hs]
      simp [List.flatMap_append]
    · exact fun it hit => (mem_groupBucket.mp hit).2
    · intro it hit
      rcases List.mem_append.mp hit with h1 | h2
      · have := (List.mem_filter.mp h1).2
        rw [gkey, Option.isNone_iff_eq_none.mp this]
        simp
      · obtain ⟨k2, hk2, hb⟩ := List.mem_flatMap.mp h2
        rw [(mem_groupBucket.mp hb).2]
        intro hc
        rw [Option.some_inj] at hc
        exact hks1 (hc ▸ hk2)
    · intro it hit
      obtain ⟨k2, hk2, hb⟩ := List.mem_flatMap.mp hit
      rw [(mem_groupBucket.mp hb).2]
      intro hc
      rw [Option.some_inj] at hc
      exact hks2 (hc ▸ hk2)
  · refine ⟨renderOrder items, [], [], by simp, by simp, ?_, by simp⟩
    intro it hit
    rcases List.mem_append.mp hit with h1 | h2
    · have := (List.mem_filter.mp h1).2
      rw [gkey, Option.isNone_iff_eq_none.mp this]
      simp
    · obtain ⟨k2, hk2, hb⟩ := List.mem_flatMap.mp h2
      rw [(mem_groupBucket.mp hb).2]
      intro hc
      rw [Option.some_inj] at hc
      exact hk (hc ▸ hk2)

lemma groupKeys_renderOrder (items : List LeafItem) :
    groupKeys (renderOrder items) = groupKeys items := by
  rw [groupKeys_eq_gkFold, renderOrder, gkFold_append]
  rw [gkFold_of_none _
    (fun it hit => Option.isNone_iff_eq_none.mp (List.mem_filter.mp hit).2) []]
  have hnd : ([] ++ groupKeys items).Nodup := by
    rw [List.nil_append, groupKeys_eq_gkFold]
    exact gkFold_nodup items [] List.nodup_nil
  have hne : ∀ k ∈ groupKeys items, groupBucket items k ≠ [] := by
    intro k hk
    rw [groupKeys_eq_gkFold] at hk
    rcases (mem_gkFold items [] k).mp hk with h | ⟨it, hit, hkey⟩
    · simp at h
    · exact List.ne_nil_of_mem (mem_groupBucket.mpr ⟨hit, hkey⟩)
  rw [gkFold_flatMap_buckets items (groupKeys items) [] hnd hne]
  rfl

/-- C2 amended: the grouping guarantees hold of the order in which
`renderMenu` lays the flattened items out in the menu (`renderOrder`),
not of the raw `collectLeaves` sequence: in the rendered order the
ungrouped items come first, the items of each group are contiguous, and
the groups appear in the order their first item was discovered in the
flatten output (`groupKeys` is first-discovery order, and it is
preserved). -/
theorem render_grouping (tree : VariableTree) (inc : Bool) :
    UngroupedFirst (renderOrder (collectLeaves inc tree [] none)) ∧
    GroupsContiguous (renderOrder (collectLeaves inc tree [] none)) ∧
    groupKeys (renderOrder (collectLeaves inc tree [] none)) =
      groupKeys (collectLeaves inc tree [] none) :=
  ⟨renderOrder_ungrouped_first _, renderOrder_contiguous _,
   groupKeys_renderOrder _⟩

/-- A node of the catalog, reachable through `children` links: the entry
`(k, n)` occurs in the forest `tree` at some depth. -/
inductive EntryIn : String → VarNode → VariableTree → Prop where
  | here {k : String} {n : VarNode} {tree : VariableTree} :
      (k, n) ∈ tree → EntryIn k n tree
  | child {k : String} {n : VarNode} {k2 t2 : String} {d2 : Option String}
      {cs : VariableTree} {tree : VariableTree} :
      (k2, VarNode.mk t2 d2 (some cs)) ∈ tree → EntryIn k n cs →
      EntryIn k n tree

lemma EntryIn.weaken {k : String} {n : VarNode} {e : String × VarNode}
    {tree : VariableTree} : EntryIn k n tree → EntryIn k n (e :: tree)
  | .here h => .here (List.mem_cons_of_mem _ h)
  | .child hmem hin => .child (List.mem_cons_of_mem _ hmem) hin

/-- A catalog node with an empty `title`: `{ k: { title: "" } }`. -/
def tree3 : VariableTree := [("k", VarNode.mk "" none none)]

/-- C3 counterexample: for the node with key `k` and `title = ""`, the
emitted item title is NOT the node's (empty) title — `node.title || key`
falls back to the key `"k"`. -/
theorem collectLeaves_title_not_node_title_cex :
    ¬ ((collectLeaves false tree3 [] none).map (fun it => it.title) =
        [(VarNode.mk "" none none).title]) := by
  intro h
  simp [tree3, collectLeaves, joinDot, titleOrKey, VarNode.title] at h


/-- The key sequences (relative path-part lists) of the items
`collectLeaves` emits, in emission order: the same recursion as
`collectLeaves`, but recording the path segments instead of building the
item. -/
def emitSeqs (inc : Bool) (tree : VariableTree) : List (List String) :=
  match tree with
  | [] => []
  | (key, VarNode.mk _ _ children) :: rest =>
    (match children with
     | some cs =>
       if cs.isEmpty then [[key]]
       else
         (if inc then [[key]] else []) ++
           (emitSeqs inc cs).map (fun q => key :: q)
     | none => [[key]]) ++ emitSeqs inc rest

/-- The key sequences of the internal nodes of a catalog (nodes whose
children mapping is present and non-empty), in traversal order. -/
def internalSeqs (tree : VariableTree) : List (List String) :=
  match tree with
  | [] => []
  | (key, VarNode.mk _ _ children) :: rest =>
    (match children with
     | some cs =>
       if cs.isEmpty then []
       else [key] :: (internalSeqs cs).map (fun q => key :: q)
     | none => []) ++ internalSeqs rest

/-- The dot-joined addresses of the internal nodes of a catalog. -/
def internalAddrs (tree : VariableTree) : List String :=
  (internalSeqs tree).map joinDot

/-- The keys of every mapping in the catalog are pairwise distinct — an
invariant every JavaScript `Record` satisfies by construction. -/
def treeWF (tree : VariableTree) : Bool :=
  match tree with
  | [] => true
  | (key, VarNode.mk _ _ children) :: rest =>
    !(rest.any (fun e => e.1 == key)) &&
      (match children with
       | some cs => treeWF cs
       | none => true) && treeWF rest

/-- No key anywhere in the catalog contains a dot. -/
def keysDotFree (tree : VariableTree) : Bool :=
  match tree with
  | [] => true
  | (key, VarNode.mk _ _ children) :: rest =>
    !(key.data.contains '.') &&
      (match children with
       | some cs => keysDotFree cs
       | none => true) && keysDotFree rest

/-- A list of strings none of which contains a dot. -/
def DotFreeSeq (q : List String) : Prop := ∀ s ∈ q, ('.' : Char) ∉ s.data

lemma joinDot_data_cons (a b : String) (l : List String) :
    (joinDot (a :: b :: l)).data = a.data ++ '.' :: (joinDot (b :: l)).data := by
  rw [joinDot]
  change (a ++ "." ++ joinDot (b :: l)).data = _
  simp

lemma split_on_unique_char {c : Char} :
    ∀ {u v t1 t2 : List Char}, c ∉ u → c ∉ v →
      u ++ c :: t1 = v ++ c :: t2 → u = v ∧ t1 = t2 := by
  intro u
  induction u with
  | nil =>
    intro v t1 t2 _ hv h
    cases v with
    | nil => simpa using h
    | cons b v2 =>
      rw [List.nil_append, List.cons_append] at h
      injection h with h1 h2
      exact absurd (h1 ▸ List.mem_cons_self b v2) (fun hm => hv (h1 ▸ hm))
  | cons a u2 ih =>
    intro v t1 t2 hu hv h
    cases v with
    | nil =>
      rw [List.cons_append, List.nil_append] at h
      injection h with h1 h2
      exact absurd (List.mem_cons_self a u2) (h1 ▸ hu)
    | cons b v2 =>
      rw [List.cons_append, List.cons_append] at h
      injection h with h1 h2
      obtain ⟨hl, hr⟩ := ih (fun hm => hu (List.mem_cons_of_mem _ hm))
        (fun hm => hv (List.mem_cons_of_mem _ hm)) h2
      exact ⟨by rw [h1, hl], hr⟩

lemma joinDot_inj :
    ∀ {xs ys : List String}, xs ≠ [] → ys ≠ [] →
      DotFreeSeq xs → DotFreeSeq ys → joinDot xs = joinDot ys → xs = ys := by
  intro xs
  induction xs with
  | nil => intro ys h; exact absurd rfl h
  | cons a xs2 ih =>
    intro ys _ hys hdx hdy heq
    cases ys with
    | nil => exact absurd rfl hys
    | cons b ys2 =>
      have hda : ('.' : Char) ∉ a.data := hdx a (List.mem_cons_self a xs2)
      have hdb : ('.' : Char) ∉ b.data := hdy b (List.mem_cons_self b ys2)
      cases xs2 with
      | nil =>
        cases ys2 with
        | nil =>
          rw [joinDot, joinDot] at heq
          rw [heq]
        | cons b2 ys3 =>
          rw [joinDot] at heq
          have hd := congrArg String.data heq
          rw [joinDot_data_cons] at hd
          exact absurd (hd ▸ List.mem_append_right b.data
            (List.mem_cons_self '.' _)) hda
      | cons a2 xs3 =>
        cases ys2 with
        | nil =>
          have hd := congrArg String.data heq
          rw [joinDot_data_cons] at hd
          exact absurd (hd.symm ▸ List.mem_append_right a.data
            (List.mem_cons_self '.' _)) hdb
        | cons b2 ys3 =>
          have hd := congrArg String.data heq
          rw [joinDot_data_cons, joinDot_data_cons] at hd
          obtain ⟨h1, h2⟩ := split_on_unique_char hda hdb hd
          have hab : a = b := String.ext h1
          have htail : a2 :: xs3 = b2 :: ys3 := by
            refine ih (by simp) (by simp)
              (fun s hs => hdx s (List.mem_cons_of_mem _ hs))
              (fun s hs => hdy s (List.mem_cons_of_mem _ hs)) ?_
            exact String.ext h2
          rw [hab, htail]

lemma treeWF_cons {key ti : String} {de : Option String}
    {ch : Option VariableTree} {rest : VariableTree}
    (h : treeWF ((key, VarNode.mk ti de ch) :: rest) = true) :
    (∀ e ∈ rest, e.1 ≠ key) ∧ (∀ cs, ch = some cs → treeWF cs = true) ∧
      treeWF rest = true := by
  cases ch with
  | none =>
    rw [treeWF] at h
    simp only [Bool.and_eq_true, Bool.not_eq_true', List.any_eq_false] at h
    refine ⟨fun e he hk => ?_, fun cs hcs => absurd hcs (by simp), h.2⟩
    have := h.1.1 e he
    simp [hk] at this
  | some cs0 =>
    rw [treeWF] at h
    simp only [Bool.and_eq_true, Bool.not_eq_true', List.any_eq_false] at h
    refine ⟨fun e he hk => ?_, fun cs hcs => ?_, h.2⟩
    · have := h.1.1 e he
      simp [hk] at this
    · injection hcs with hcs2
      exact hcs2 ▸ h.1.2

lemma keysDotFree_cons {key ti : String} {de : Option String}
    {ch : Option VariableTree} {rest : VariableTree}
    (h : keysDotFree ((key, VarNode.mk ti de ch) :: rest) = true) :
    ('.' : Char) ∉ key.data ∧ (∀ cs, ch = some cs → keysDotFree cs = true) ∧
      keysDotFree rest = true := by
  cases ch with
  | none =>
    rw [keysDotFree] at h
    simp only [Bool.and_eq_true, Bool.not_eq_true'] at h
    refine ⟨fun hm => ?_, fun cs hcs => absurd hcs (by simp), h.2⟩
    have h2 := h.1.1
    rw [show key.data.contains '.' = key.data.elem '.' from rfl,
      List.elem_eq_true_of_mem hm] at h2
    cases h2
  | some cs0 =>
    rw [keysDotFree] at h
    simp only [Bool.and_eq_true, Bool.not_eq_true'] at h
    refine ⟨fun hm => ?_, fun cs hcs => ?_, h.2⟩
    · have h2 := h.1.1
      rw [show key.data.contains '.' = key.data.elem '.' from rfl,
        List.elem_eq_true_of_mem hm] at h2
      cases h2
    · injection hcs with hcs2
      exact hcs2 ▸ h.1.2

lemma isEmpty_false_of_ne_nil {cs : VariableTree} (h : cs ≠ []) :
    cs.isEmpty = false := by
  cases cs with
  | nil => exact absurd rfl h
  | cons a l => rfl

/-- The node each emitted item comes from: the same recursion as
`collectLeaves`, but recording, at every position of the output, the
relative path segments together with the key and node whose visit
produced the item at that position. -/
def emitNodes (inc : Bool) (tree : VariableTree) :
    List (List String × String × VarNode) :=
  match tree with
  | [] => []
  | (key, VarNode.mk title descr children) :: rest =>
    (match children with
     | some cs =>
       if cs.isEmpty then [([key], key, VarNode.mk title descr (some cs))]
       else
         (if inc then [([key], key, VarNode.mk title descr (some cs))]
          else []) ++
           (emitNodes inc cs).map (fun e => (key :: e.1, e.2))
     | none => [([key], key, VarNode.mk title descr none)]) ++
      emitNodes inc rest

lemma collectLeaves_titles (inc : Bool) :
    ∀ (tree : VariableTree) (pfx : List String) (parent : Option Group),
      (collectLeaves inc tree pfx parent).map
          (fun it => (it.path, it.title, it.description)) =
        (emitNodes inc tree).map
          (fun e => (joinDot (pfx ++ e.1), titleOrKey e.2.1 e.2.2.title,
            e.2.2.description)) := by
  intro tree pfx parent
  induction tree, pfx, parent using collectLeaves.induct inc with
  | case1 pfx parent => simp [collectLeaves, emitNodes]
  | case2 pfx parent key title descr children rest pathParts path t ihcs ihrest =>
    have hcomp :
        (fun e : List String × String × VarNode =>
            (joinDot ((pfx ++ [key]) ++ e.1), titleOrKey e.2.1 e.2.2.title,
              e.2.2.description)) =
          (fun e : List String × String × VarNode =>
            (joinDot (pfx ++ key :: e.1), titleOrKey e.2.1 e.2.2.title,
              e.2.2.description)) := by
      funext e
      rw [List.append_assoc]
      rfl
    cases children with
    | none =>
      simp [collectLeaves, emitNodes, ihrest, VarNode.title,
        VarNode.description]
    | some cs =>
      by_cases hemp : cs.isEmpty
      · simp [collectLeaves, emitNodes, hemp, ihrest, VarNode.title,
          VarNode.description]
      · cases inc with
        | false =>
          simp [collectLeaves, emitNodes, hemp, ihrest, ihcs,
            List.map_map, Function.comp, hcomp, VarNode.title,
            VarNode.description]
          intro a a1 b _
          exact congrArg joinDot (List.append_assoc pfx [key] a)
        | true =>
          simp [collectLeaves, emitNodes, hemp, ihrest, ihcs,
            List.map_map, Function.comp, hcomp, VarNode.title,
            VarNode.description]
          intro a a1 b _
          exact congrArg joinDot (List.append_assoc pfx [key] a)

lemma emitNodes_entryIn (inc : Bool) :
    ∀ (tree : VariableTree), ∀ e ∈ emitNodes inc tree,
      EntryIn e.2.1 e.2.2 tree := by
  intro tree
  induction tree using treeWF.induct with
  | case1 => intro e he; simp [emitNodes] at he
  | case2 key ti de ch rest ihcs ihrest =>
    intro e he
    cases ch with
    | none =>
      rw [emitNodes, List.mem_append] at he
      rcases he with h1 | h2
      · rw [List.mem_singleton] at h1
        subst h1
        exact .here (List.mem_cons_self _ _)
      · exact (ihrest e h2).weaken
    | some cs =>
      rw [emitNodes, List.mem_append] at he
      rcases he with h1 | h2
      · by_cases hemp : cs.isEmpty
        · rw [if_pos hemp, List.mem_singleton] at h1
          subst h1
          exact .here (List.mem_cons_self _ _)
        · rw [if_neg hemp, List.mem_append] at h1
          rcases h1 with h1a | h1b
          · cases inc with
            | false => simp at h1a
            | true =>
              rw [if_pos rfl, List.mem_singleton] at h1a
              subst h1a
              exact .here (List.mem_cons_self _ _)
          · obtain ⟨e0, he0, hsh⟩ := List.mem_map.mp h1b
            subst hsh
            exact .child (List.mem_cons_self _ _) (ihcs e0 he0)
      · exact (ihrest e h2).weaken

example :
    emitNodes false tree3 = [(["k"], "k", VarNode.mk "" none none)] ∧
    (collectLeaves false tree3 [] none).map
      (fun it => (it.path, it.title, it.description)) =
      [("k", "k", (none : Option String))] := by
  constructor
  · simp [tree3, emitNodes]
  · simp [tree3, collectLeaves, joinDot, titleOrKey]

/-- C3 amended: every emitted item takes its title and description from
the very node it was emitted from: position by position, the flatten
output projected to `(path, title, description)` equals the emission
list of nodes (`emitNodes`, the same recursion recording which node is
visited at each output position) projected through `node.title || key` —
the title equals that node's `title` whenever it is non-empty and falls
back to that node's own key when it is the empty string, and the
description is that node's description — and every node recorded for a
position is a genuine node of the catalog. -/
theorem collectLeaves_title_fallback (inc : Bool) (tree : VariableTree)
    (pfx : List String) (parent : Option Group) :
    ((collectLeaves inc tree pfx parent).map
        (fun it => (it.path, it.title, it.description)) =
      (emitNodes inc tree).map
        (fun e => (joinDot (pfx ++ e.1), titleOrKey e.2.1 e.2.2.title,
          e.2.2.description))) ∧
    ∀ e ∈ emitNodes inc tree, EntryIn e.2.1 e.2.2 tree :=
  ⟨collectLeaves_titles inc tree pfx parent, emitNodes_entryIn inc tree⟩

lemma emitSeqs_shape (inc : Bool) :
    ∀ (tree : VariableTree), ∀ q ∈ emitSeqs inc tree,
      ∃ hd tl, q = hd :: tl ∧ hd ∈ tree.map Prod.fst := by
  intro tree
  induction tree with
  | nil => simp [emitSeqs]
  | cons e rest ih =>
    obtain ⟨key, ti, de, ch⟩ := e
    intro q hq
    have htail : q ∈ emitSeqs inc rest →
        ∃ hd tl, q = hd :: tl ∧ hd ∈ ((key, VarNode.mk ti de ch) :: rest).map Prod.fst := by
      intro h2
      obtain ⟨hd, tl, heq, hmem⟩ := ih q h2
      exact ⟨hd, tl, heq, by simp [List.mem_map] at hmem ⊢; right; exact hmem⟩
    cases ch with
    | none =>
      rw [emitSeqs, List.mem_append] at hq
      rcases hq with h1 | h2
      · rw [List.mem_singleton] at h1
        exact ⟨key, [], h1, by simp⟩
      · exact htail h2
    | some cs =>
      rw [emitSeqs, List.mem_append] at hq
      rcases hq with h1 | h2
      · by_cases hemp : cs.isEmpty
        · rw [if_pos hemp, List.mem_singleton] at h1
          exact ⟨key, [], h1, by simp⟩
        · rw [if_neg hemp, List.mem_append] at h1
          rcases h1 with h1a | h1b
          · cases inc with
            | false => simp at h1a
            | true =>
              rw [if_pos rfl, List.mem_singleton] at h1a
              exact ⟨key, [], h1a, by simp⟩
          · obtain ⟨q2, _, hq2⟩ := List.mem_map.mp h1b
            exact ⟨key, q2, hq2.symm, by simp⟩
      · exact htail h2

lemma internalSeqs_shape :
    ∀ (tree : VariableTree), ∀ q ∈ internalSeqs tree,
      ∃ hd tl, q = hd :: tl ∧ hd ∈ tree.map Prod.fst := by
  intro tree
  induction tree with
  | nil => simp [internalSeqs]
  | cons e rest ih =>
    obtain ⟨key, ti, de, ch⟩ := e
    intro q hq
    have htail : q ∈ internalSeqs rest →
        ∃ hd tl, q = hd :: tl ∧ hd ∈ ((key, VarNode.mk ti de ch) :: rest).map Prod.fst := by
      intro h2
      obtain ⟨hd, tl, heq, hmem⟩ := ih q h2
      exact ⟨hd, tl, heq, by simp [List.mem_map] at hmem ⊢; right; exact hmem⟩
    cases ch with
    | none =>
      rw [internalSeqs, List.nil_append] at hq
      exact htail hq
    | some cs =>
      rw [internalSeqs, List.mem_append] at hq
      rcases hq with h1 | h2
      · by_cases hemp : cs.isEmpty
        · rw [if_pos hemp] at h1
          simp at h1
        · rw [if_neg hemp, List.mem_cons] at h1
          rcases h1 with h1a | h1b
          · exact ⟨key, [], h1a, by simp⟩
          · obtain ⟨q2, _, hq2⟩ := List.mem_map.mp h1b
            exact ⟨key, q2, hq2.symm, by simp⟩
      · exact htail h2

lemma emitSeqs_dotfree (inc : Bool) :
    ∀ (tree : VariableTree), keysDotFree tree = true →
      ∀ q ∈ emitSeqs inc tree, DotFreeSeq q := by
  intro tree
  induction tree using keysDotFree.induct with
  | case1 => intro _ q hq; simp [emitSeqs] at hq
  | case2 key ti de ch rest ihcs ihrest =>
    intro hdf q hq
    obtain ⟨hkey, hchld, hrest⟩ := keysDotFree_cons hdf
    have hsingle : q = [key] → DotFreeSeq q := by
      rintro rfl s hs
      rw [List.mem_singleton] at hs
      exact hs ▸ hkey
    cases ch with
    | none =>
      rw [emitSeqs, List.mem_append] at hq
      rcases hq with h1 | h2
      · exact hsingle (List.mem_singleton.mp h1)
      · exact ihrest hrest q h2
    | some cs =>
      rw [emitSeqs, List.mem_append] at hq
      rcases hq with h1 | h2
      · by_cases hemp : cs.isEmpty
        · rw [if_pos hemp] at h1
          exact hsingle (List.mem_singleton.mp h1)
        · rw [if_neg hemp, List.mem_append] at h1
          rcases h1 with h1a | h1b
          · cases inc with
            | false => simp at h1a
            | true =>
              rw [if_pos rfl] at h1a
              exact hsingle (List.mem_singleton.mp h1a)
          · obtain ⟨q2, hq2, hcons⟩ := List.mem_map.mp h1b
            subst hcons
            intro s hs
            rcases List.mem_cons.mp hs with rfl | hs2
            · exact hkey
            · exact ihcs (hchld cs rfl) q2 hq2 s hs2
      · exact ihrest hrest q h2

lemma internalSeqs_dotfree :
    ∀ (tree : VariableTree), keysDotFree tree = true →
      ∀ q ∈ internalSeqs tree, DotFreeSeq q := by
  intro tree
  induction tree using keysDotFree.induct with
  | case1 => intro _ q hq; simp [internalSeqs] at hq
  | case2 key ti de ch rest ihcs ihrest =>
    intro hdf q hq
    obtain ⟨hkey, hchld, hrest⟩ := keysDotFree_cons hdf
    cases ch with
    | none =>
      rw [internalSeqs, List.nil_append] at hq
      exact ihrest hrest q hq
    | some cs =>
      rw [internalSeqs, List.mem_append] at hq
      rcases hq with h1 | h2
      · by_cases hemp : cs.isEmpty
        · rw [if_pos hemp] at h1
          simp at h1
        · rw [if_neg hemp, List.mem_cons] at h1
          rcases h1 with h1a | h1b
          · subst h1a
            intro s hs
            rw [List.mem_singleton] at hs
            exact hs ▸ hkey
          · obtain ⟨q2, hq2, hcons⟩ := List.mem_map.mp h1b
            subst hcons
            intro s hs
            rcases List.mem_cons.mp hs with rfl | hs2
            · exact hkey
            · exact ihcs (hchld cs rfl) q2 hq2 s hs2
      · exact ihrest hrest q h2

lemma internal_head_ne {key : String} {rest : VariableTree}
    (hk : ∀ e ∈ rest, e.1 ≠ key) (tl : List String) :
    key :: tl ∉ internalSeqs rest := by
  intro hmem
  obtain ⟨hd, tl2, heq, hkeys⟩ := internalSeqs_shape rest _ hmem
  injection heq with h1 _
  obtain ⟨e, he, hf⟩ := List.mem_map.mp hkeys
  exact hk e he (by rw [hf, ← h1])

lemma emit_head_ne (inc : Bool) {key : String} {rest : VariableTree}
    (hk : ∀ e ∈ rest, e.1 ≠ key) (tl : List String) :
    key :: tl ∉ emitSeqs inc rest := by
  intro hmem
  obtain ⟨hd, tl2, heq, hkeys⟩ := emitSeqs_shape inc rest _ hmem
  injection heq with h1 _
  obtain ⟨e, he, hf⟩ := List.mem_map.mp hkeys
  exact hk e he (by rw [hf, ← h1])

lemma emit_not_internal :
    ∀ (tree : VariableTree), treeWF tree = true →
      ∀ q ∈ emitSeqs false tree, q ∉ internalSeqs tree := by
  intro tree
  induction tree using treeWF.induct with
  | case1 => intro _ q hq; simp [emitSeqs] at hq
  | case2 key ti de ch rest ihcs ihrest =>
    intro hwf q hq hqint
    obtain ⟨hk, hchld, hrest⟩ := treeWF_cons hwf
    cases ch with
    | none =>
      rw [emitSeqs, List.mem_append] at hq
      rw [internalSeqs, List.nil_append] at hqint
      rcases hq with hq1 | hq2
      · rw [List.mem_singleton] at hq1
        exact internal_head_ne hk [] (hq1 ▸ hqint)
      · exact ihrest hrest q hq2 hqint
    | some cs =>
      rw [emitSeqs, List.mem_append] at hq
      rw [internalSeqs, List.mem_append] at hqint
      by_cases hemp : cs.isEmpty
      · rw [if_pos hemp] at hq hqint
        have hqint2 : q ∈ internalSeqs rest := by
          rcases hqint with h1 | h2
          · simp at h1
          · exact h2
        rcases hq with hq1 | hq2
        · rw [List.mem_singleton] at hq1
          exact internal_head_ne hk [] (hq1 ▸ hqint2)
        · exact ihrest hrest q hq2 hqint2
      · rw [if_neg hemp] at hq hqint
        rcases hq with hq1 | hq2
        · simp only [Bool.false_eq_true, if_false, List.nil_append] at hq1
          obtain ⟨q2, hq2emit, hcons⟩ := List.mem_map.mp hq1
          rcases hqint with hi1 | hi2
          · rcases List.mem_cons.mp hi1 with heq | hi1b
            · rw [← hcons] at heq
              injection heq with _ h2
              obtain ⟨hd, tl, hsh, _⟩ := emitSeqs_shape false cs q2 hq2emit
              rw [hsh] at h2
              exact List.cons_ne_nil hd tl h2
            · obtain ⟨q3, hq3, hcons3⟩ := List.mem_map.mp hi1b
              rw [← hcons] at hcons3
              injection hcons3 with _ h2
              exact ihcs (hchld cs rfl) q2 hq2emit (h2 ▸ hq3)
          · exact internal_head_ne hk q2 (hcons ▸ hi2)
        · rcases hqint with hi1 | hi2
          · rcases List.mem_cons.mp hi1 with heq | hi1b
            · exact emit_head_ne false hk [] (heq ▸ hq2)
            · obtain ⟨q3, hq3, hcons3⟩ := List.mem_map.mp hi1b
              exact emit_head_ne false hk q3 (hcons3 ▸ hq2)
          · exact ihrest hrest q hq2 hi2

lemma emitSeqs_true_nodup :
    ∀ (tree : VariableTree), treeWF tree = true →
      (emitSeqs true tree).Nodup := by
  intro tree
  induction tree using treeWF.induct with
  | case1 => intro _; simp [emitSeqs]
  | case2 key ti de ch rest ihcs ihrest =>
    intro hwf
    obtain ⟨hk, hchld, hrest⟩ := treeWF_cons hwf
    cases ch with
    | none =>
      rw [emitSeqs, List.nodup_append]
      refine ⟨List.nodup_singleton _, ihrest hrest, ?_⟩
      intro q hq1 hq2
      rw [List.mem_singleton] at hq1
      exact emit_head_ne true hk [] (hq1 ▸ hq2)
    | some cs =>
      by_cases hemp : cs.isEmpty
      · rw [emitSeqs, if_pos hemp, List.nodup_append]
        refine ⟨List.nodup_singleton _, ihrest hrest, ?_⟩
        intro q hq1 hq2
        rw [List.mem_singleton] at hq1
        exact emit_head_ne true hk [] (hq1 ▸ hq2)
      · rw [emitSeqs, if_neg hemp, if_pos rfl, List.nodup_append]
        refine ⟨?_, ihrest hrest, ?_⟩
        · rw [List.singleton_append, List.nodup_cons]
          constructor
          · intro hmem
            obtain ⟨q2, hq2, hcons⟩ := List.mem_map.mp hmem
            obtain ⟨hd, tl, hsh, _⟩ := emitSeqs_shape true cs q2 hq2
            rw [hsh] at hcons
            injection hcons with _ h2
            exact List.cons_ne_nil hd tl h2
          · refine List.Nodup.map ?_ (ihcs (hchld cs rfl))
            intro a b hab
            injection hab
        · intro q hq1 hq2
          rw [List.singleton_append] at hq1
          rcases List.mem_cons.mp hq1 with rfl | hq1b
          · exact emit_head_ne true hk [] hq2
          · obtain ⟨q2, _, hcons⟩ := List.mem_map.mp hq1b
            exact emit_head_ne true hk q2 (hcons ▸ hq2)

lemma internal_sub_emit :
    ∀ (tree : VariableTree), ∀ q ∈ internalSeqs tree,
      q ∈ emitSeqs true tree := by
  intro tree
  induction tree using treeWF.induct with
  | case1 => intro q hq; simp [internalSeqs] at hq
  | case2 key ti de ch rest ihcs ihrest =>
    intro q hq
    cases ch with
    | none =>
      rw [internalSeqs, List.nil_append] at hq
      rw [emitSeqs]
      exact List.mem_append_right _ (ihrest q hq)
    | some cs =>
      rw [internalSeqs] at hq
      rw [emitSeqs]
      by_cases hemp : cs.isEmpty
      · rw [if_pos hemp, List.nil_append] at hq
        rw [if_pos hemp]
        exact List.mem_append_right _ (ihrest q hq)
      · rw [if_neg hemp, List.mem_append] at hq
        rw [if_neg hemp, if_pos rfl]
        rcases hq with h1 | h2
        · refine List.mem_append_left _ ?_
          rw [List.singleton_append]
          rcases List.mem_cons.mp h1 with rfl | h1b
          · exact List.mem_cons_self _ _
          · obtain ⟨q2, hq2, hcons⟩ := List.mem_map.mp h1b
            exact List.mem_cons_of_mem _
              (hcons ▸ List.mem_map_of_mem _ (ihcs q2 hq2))
        · exact List.mem_append_right _ (ihrest q h2)

lemma collectLeaves_paths (inc : Bool) :
    ∀ (tree : VariableTree) (pfx : List String) (parent : Option Group),
      (collectLeaves inc tree pfx parent).map (fun it => it.path) =
        (emitSeqs inc tree).map (fun q => joinDot (pfx ++ q)) := by
  intro tree pfx parent
  induction tree, pfx, parent using collectLeaves.induct inc with
  | case1 pfx parent => simp [collectLeaves, emitSeqs]
  | case2 pfx parent key title descr children rest pathParts path t ihcs ihrest =>
    have hcomp : (fun q => joinDot ((pfx ++ [key]) ++ q)) =
        (fun q => joinDot (pfx ++ key :: q)) := by
      funext q
      rw [List.append_assoc]
      rfl
    cases children with
    | none => simp [collectLeaves, emitSeqs, ihrest]
    | some cs =>
      by_cases hemp : cs.isEmpty
      · simp [collectLeaves, emitSeqs, hemp, ihrest]
      · cases inc with
        | false =>
          simp [collectLeaves, emitSeqs, hemp, ihrest, ihcs,
            List.map_map, Function.comp, hcomp]
        | true =>
          simp [collectLeaves, emitSeqs, hemp, ihrest, ihcs,
            List.map_map, Function.comp, hcomp]

lemma countP_joinDot_unique :
    ∀ (L : List (List String)) (q0 : List String), L.Nodup →
      (∀ q ∈ L, q ≠ [] ∧ DotFreeSeq q) → q0 ∈ L → q0 ≠ [] →
      DotFreeSeq q0 →
      L.countP (fun q => joinDot q == joinDot q0) = 1 := by
  intro L
  induction L with
  | nil => intro q0 _ _ h; simp at h
  | cons a L2 ih =>
    intro q0 hnd hall hq0 hq0ne hq0df
    rw [List.countP_cons]
    rw [List.nodup_cons] at hnd
    rcases List.mem_cons.mp hq0 with rfl | hq02
    · have hz : L2.countP (fun q => joinDot q == joinDot q0) = 0 := by
        rw [List.countP_eq_zero]
        intro q hq hbeq
        have hj : joinDot q = joinDot q0 := by
          exact eq_of_beq hbeq
        have hqprops := hall q (List.mem_cons_of_mem _ hq)
        have : q = q0 := joinDot_inj hqprops.1 hq0ne hqprops.2 hq0df hj
        exact hnd.1 (this ▸ hq)
      rw [hz]
      simp
    · have hne2 : ¬ ((joinDot a == joinDot q0) = true) := by
        intro hbeq
        have hj : joinDot a = joinDot q0 := eq_of_beq hbeq
        have haprops := hall a (List.mem_cons_self a L2)
        have : a = q0 := joinDot_inj haprops.1 hq0ne haprops.2 hq0df hj
        exact hnd.1 (this ▸ hq02)
      rw [ih q0 hnd.2 (fun q hq => hall q (List.mem_cons_of_mem _ hq))
        hq02 hq0ne hq0df]
      simp [hne2]

/-- A catalog with a dotted top-level key `a.b` colliding with the
internal node at path `a` → `b`:
`{ a: { title: "A", children: { b: { title: "B", children: { c:
{ title: "C" } } } } }, "a.b": { title: "X" } }` — a legal JavaScript
`Record`, since its keys are distinct strings. -/
def tree8 : VariableTree :=
  [("a", VarNode.mk "A" none
     (some [("b", VarNode.mk "B" none
       (some [("c", VarNode.mk "C" none none)]))])),
   ("a.b", VarNode.mk "X" none none)]

/-- C7 counterexample: with `includeParentNodes = false`, the leaf with
top-level key `"a.b"` is emitted with address `"a.b"`, which is also the
address of the internal node reached by keys `a`, `b`. -/
theorem leaf_address_hits_internal_cex :
    ∃ it ∈ collectLeaves false tree8 [] none,
      it.path ∈ internalAddrs tree8 := by
  refine ⟨⟨"a.b", "X", none, none⟩, ?_, ?_⟩
  · simp [tree8, collectLeaves, joinDot, titleOrKey]
  · simp [tree8, internalAddrs, internalSeqs, joinDot]

/-- C7 amended: with `includeParentNodes = false`, no emitted item's
address equals any internal node's address, provided the catalog is a
well-formed record (distinct keys in every mapping — true of every
JavaScript object) and no key contains a `.` character; without the
dot-free proviso the dot-joined address of a leaf can collide with an
internal node's address (see the counterexample). -/
theorem leaf_default_no_internal_address (tree : VariableTree)
    (hwf : treeWF tree = true) (hdf : keysDotFree tree = true) :
    ∀ it ∈ collectLeaves false tree [] none,
      it.path ∉ internalAddrs tree := by
  intro it hit hmem
  have h1 : it.path ∈ (collectLeaves false tree [] none).map (fun i => i.path) :=
    List.mem_map_of_mem _ hit
  rw [collectLeaves_paths] at h1
  obtain ⟨q, hq, hjq⟩ := List.mem_map.mp h1
  rw [List.nil_append] at hjq
  obtain ⟨q2, hq2, hjq2⟩ := List.mem_map.mp hmem
  obtain ⟨hd, tl, hsh, _⟩ := emitSeqs_shape false tree q hq
  obtain ⟨hd2, tl2, hsh2, _⟩ := internalSeqs_shape tree q2 hq2
  have hqeq : q = q2 := by
    refine joinDot_inj (by rw [hsh]; simp) (by rw [hsh2]; simp)
      (emitSeqs_dotfree false tree hdf q hq)
      (internalSeqs_dotfree tree hdf q2 hq2) ?_
    rw [hjq, ← hjq2]
  exact emit_not_internal tree hwf q hq (hqeq ▸ hq2)

/-- C7 witness: the amended statement evaluated on the spec's example
catalog. -/
theorem leaf_default_no_internal_address_witness :
    treeWF tree1 = true ∧ keysDotFree tree1 = true ∧
    (∀ it ∈ collectLeaves false tree1 [] none,
      it.path ∉ internalAddrs tree1) :=
  ⟨by simp [tree1, treeWF], by simp [tree1, keysDotFree],
   leaf_default_no_internal_address tree1 (by simp [tree1, treeWF])
     (by simp [tree1, keysDotFree])⟩

lemma collectLeaves_append (inc : Bool) :
    ∀ (t1 t2 : VariableTree) (pfx : List String) (parent : Option Group),
      collectLeaves inc (t1 ++ t2) pfx parent =
        collectLeaves inc t1 pfx parent ++ collectLeaves inc t2 pfx parent := by
  intro t1
  induction t1 with
  | nil => intro t2 pfx parent; simp [collectLeaves]
  | cons e rest ih =>
    intro t2 pfx parent
    obtain ⟨key, ti, de, ch⟩ := e
    rw [List.cons_append]
    cases ch with
    | none =>
      simp only [collectLeaves]
      rw [ih]
      simp [List.append_assoc]
    | some cs =>
      simp only [collectLeaves]
      rw [ih]
      simp [List.append_assoc]

/-- The recursion of `collectLeaves` starting from `(t0, p0, g0)` reaches
the call on `(t, p, g)`: either they are the same call, or the start
holds an internal entry through whose children the recursion descends
with the path extended by the entry's key and the group reset to the
entry itself. -/
inductive Reaches :
    VariableTree → List String → Option Group →
      VariableTree → List String → Option Group → Prop where
  | refl (t : VariableTree) (p : List String) (g : Option Group) :
      Reaches t p g t p g
  | step {t0 : VariableTree} {p0 : List String} {g0 : Option Group}
      {t : VariableTree} {p : List String} {g : Option Group}
      (k2 ti2 : String) (de2 : Option String) (cs2 : VariableTree) :
      (k2, VarNode.mk ti2 de2 (some cs2)) ∈ t0 → cs2 ≠ [] →
      Reaches cs2 (p0 ++ [k2])
        (some ⟨joinDot (p0 ++ [k2]), titleOrKey k2 ti2⟩) t p g →
      Reaches t0 p0 g0 t p g

lemma internalSeqs_mono_tail {q : List String} {e : String × VarNode}
    {rest : VariableTree} (h : q ∈ internalSeqs rest) :
    q ∈ internalSeqs (e :: rest) := by
  obtain ⟨ke, te, dee, che⟩ := e
  cases che with
  | none => rw [internalSeqs, List.nil_append]; exact h
  | some cs => rw [internalSeqs]; exact List.mem_append_right _ h

lemma internalSeqs_mem_of_entry :
    ∀ {t : VariableTree} {k ti : String} {de : Option String}
      {cs : VariableTree},
      (k, VarNode.mk ti de (some cs)) ∈ t → cs ≠ [] →
      [k] ∈ internalSeqs t ∧
        ∀ q ∈ internalSeqs cs, k :: q ∈ internalSeqs t := by
  intro t
  induction t with
  | nil => intro k ti de cs h; cases h
  | cons e rest ih =>
    intro k ti de cs hmem hne
    rcases List.mem_cons.mp hmem with heq | hmem2
    · obtain ⟨ke, te, dee, che⟩ := e
      injection heq with h1 h2
      injection h2 with ha hb hc
      subst h1
      subst ha
      subst hb
      subst hc
      have hemp := isEmpty_false_of_ne_nil hne
      constructor
      · rw [internalSeqs, if_neg (by simp [hemp])]
        exact List.mem_append_left _ (List.mem_cons_self _ _)
      · intro q hq
        rw [internalSeqs, if_neg (by simp [hemp])]
        exact List.mem_append_left _
          (List.mem_cons_of_mem _ (List.mem_map_of_mem _ hq))
    · have hih := ih hmem2 hne
      exact ⟨internalSeqs_mono_tail hih.1,
        fun q hq => internalSeqs_mono_tail (hih.2 q hq)⟩

lemma reaches_internal_seq {t0 : VariableTree} {p0 : List String}
    {g0 : Option Group} {t : VariableTree} {p : List String}
    {g : Option Group} (hr : Reaches t0 p0 g0 t p g) :
    ∀ {k ti : String} {de : Option String} {cs : VariableTree},
      (k, VarNode.mk ti de (some cs)) ∈ t → cs ≠ [] →
      ∃ q, p ++ [k] = p0 ++ q ∧ q ∈ internalSeqs t0 := by
  induction hr with
  | refl t p g =>
    intro k ti de cs hmem hne
    exact ⟨[k], rfl, (internalSeqs_mem_of_entry hmem hne).1⟩
  | step k2 ti2 de2 cs2 hm hne2 hr2 ih =>
    intro k ti de cs hmem hne
    obtain ⟨q, hq, hqint⟩ := ih hmem hne
    refine ⟨k2 :: q, ?_, (internalSeqs_mem_of_entry hm hne2).2 q hqint⟩
    rw [hq]
    simp

lemma collectLeaves_entry_split {t : VariableTree} {k ti : String}
    {de : Option String} {cs : VariableTree} (p : List String)
    (g : Option Group)
    (hmem : (k, VarNode.mk ti de (some cs)) ∈ t) (hne : cs ≠ []) :
    ∃ l r, collectLeaves true t p g =
      l ++ ⟨joinDot (p ++ [k]), titleOrKey k ti, de, g⟩ ::
        (collectLeaves true cs (p ++ [k])
          (some ⟨joinDot (p ++ [k]), titleOrKey k ti⟩) ++ r) := by
  obtain ⟨s1, s2, hsplit⟩ := List.mem_iff_append.mp hmem
  have hemp := isEmpty_false_of_ne_nil hne
  refine ⟨collectLeaves true s1 p g, collectLeaves true s2 p g, ?_⟩
  rw [hsplit, collectLeaves_append]
  simp only [collectLeaves, hemp]
  simp [List.append_assoc]

lemma reaches_split {t0 : VariableTree} {p0 : List String}
    {g0 : Option Group} {t : VariableTree} {p : List String}
    {g : Option Group} (hr : Reaches t0 p0 g0 t p g) :
    ∀ {k ti : String} {de : Option String} {cs : VariableTree},
      (k, VarNode.mk ti de (some cs)) ∈ t → cs ≠ [] →
      ∃ l r, collectLeaves true t0 p0 g0 =
        l ++ ⟨joinDot (p ++ [k]), titleOrKey k ti, de, g⟩ ::
          (collectLeaves true cs (p ++ [k])
            (some ⟨joinDot (p ++ [k]), titleOrKey k ti⟩) ++ r) := by
  induction hr with
  | refl t p g =>
    intro k ti de cs hmem hne
    exact collectLeaves_entry_split p g hmem hne
  | step k2 ti2 de2 cs2 hm hne2 hr2 ih =>
    rename_i t0b p0b g0b tb pb gb
    intro k ti de cs hmem hne
    obtain ⟨l2, r2, hins⟩ := ih hmem hne
    obtain ⟨L, R, hLR⟩ := collectLeaves_entry_split p0b g0b hm hne2
    rw [hins] at hLR
    refine ⟨L ++
        (⟨joinDot (p0b ++ [k2]), titleOrKey k2 ti2, de2, g0b⟩ :: l2),
      r2 ++ R, ?_⟩
    rw [hLR]
    simp [List.append_assoc]

/-- C8 counterexample: with `includeParentNodes = true` the address
`"a.b"` of the internal node reached by keys `a`, `b` of `tree8` appears
twice in the flatten output — once for the internal node and once for the
leaf with the dotted top-level key `"a.b"`. -/
theorem parent_inclusion_cex :
    "a.b" ∈ internalAddrs tree8 ∧
    (collectLeaves true tree8 [] none).countP
      (fun it => it.path == "a.b") = 2 := by
  constructor
  · simp [tree8, internalAddrs, internalSeqs, joinDot]
  · simp [tree8, collectLeaves, joinDot, titleOrKey, List.countP_cons]

/-- C8 amended: in a well-formed catalog (distinct keys per mapping) with
dot-free keys, whenever the flatten recursion (with
`includeParentNodes = true`) reaches a call holding an internal entry
`(k, node)` with non-empty children `cs`, the output contains the item
for that internal node exactly once (its address occurs exactly once in
the whole output), positioned immediately before the items produced from
the node's descendants, and that item carries the group `g` inherited
from the node's parent context — the node becomes the group only for its
own children, not for itself. -/
theorem parent_inclusion (tree : VariableTree)
    (hwf : treeWF tree = true) (hdf : keysDotFree tree = true)
    (t : VariableTree) (p : List String) (g : Option Group)
    (hr : Reaches tree [] none t p g)
    (k ti : String) (de : Option String) (cs : VariableTree)
    (hmem : (k, VarNode.mk ti de (some cs)) ∈ t) (hne : cs ≠ []) :
    (∃ l r, collectLeaves true tree [] none =
        l ++ ⟨joinDot (p ++ [k]), titleOrKey k ti, de, g⟩ ::
          (collectLeaves true cs (p ++ [k])
            (some ⟨joinDot (p ++ [k]), titleOrKey k ti⟩) ++ r)) ∧
    (collectLeaves true tree [] none).countP
        (fun it => it.path == joinDot (p ++ [k])) = 1 := by
  refine ⟨reaches_split hr hmem hne, ?_⟩
  obtain ⟨q, hpq, hqint⟩ := reaches_internal_seq hr hmem hne
  rw [List.nil_append] at hpq
  have hqemit : q ∈ emitSeqs true tree := internal_sub_emit tree q hqint
  have h1 : (collectLeaves true tree [] none).countP
      (fun it => it.path == joinDot (p ++ [k]))
      = ((collectLeaves true tree [] none).map (fun it => it.path)).countP
          (fun s => s == joinDot (p ++ [k])) := by
    rw [List.countP_map]
    rfl
  rw [h1, collectLeaves_paths]
  have h2 : ((emitSeqs true tree).map (fun q2 => joinDot ([] ++ q2))).countP
      (fun s => s == joinDot (p ++ [k]))
      = (emitSeqs true tree).countP
          (fun q2 => joinDot ([] ++ q2) == joinDot (p ++ [k])) := by
    rw [List.countP_map]
    rfl
  rw [h2]
  simp only [List.nil_append]
  rw [hpq]
  obtain ⟨hd0, tl0, hsh0, _⟩ := emitSeqs_shape true tree q hqemit
  exact countP_joinDot_unique (emitSeqs true tree) q
    (emitSeqs_true_nodup tree hwf)
    (fun q2 hq2 => by
      obtain ⟨hd, tl, hsh, _⟩ := emitSeqs_shape true tree q2 hq2
      exact ⟨by rw [hsh]; simp, emitSeqs_dotfree true tree hdf q2 hq2⟩)
    hqemit (by rw [hsh0]; simp)
    (emitSeqs_dotfree true tree hdf q hqemit)

/-- C8 witness: the amended statement evaluated on the spec's example
catalog at its internal node `user`. -/
theorem parent_inclusion_witness :
    treeWF tree1 = true ∧ keysDotFree tree1 = true ∧
    Reaches tree1 [] none tree1 [] none ∧
    ("user", VarNode.mk "User" none
      (some [("first_name", VarNode.mk "First Name" none none)])) ∈ tree1 ∧
    ([("first_name", VarNode.mk "First Name" none none)] : VariableTree) ≠ [] ∧
    ((∃ l r, collectLeaves true tree1 [] none =
        l ++ ⟨joinDot ([] ++ ["user"]), titleOrKey "user" "User", none, none⟩ ::
          (collectLeaves true [("first_name", VarNode.mk "First Name" none none)]
            ([] ++ ["user"])
            (some ⟨joinDot ([] ++ ["user"]), titleOrKey "user" "User"⟩) ++ r)) ∧
     (collectLeaves true tree1 [] none).countP
        (fun it => it.path == joinDot ([] ++ ["user"])) = 1) :=
  ⟨by simp [tree1, treeWF], by simp [tree1, keysDotFree],
   Reaches.refl tree1 [] none,
   List.mem_cons_self _ _,
   by simp,
   parent_inclusion tree1 (by simp [tree1, treeWF])
     (by simp [tree1, keysDotFree]) tree1 [] none
     (Reaches.refl tree1 [] none) "user" "User" none
     [("first_name", VarNode.mk "First Name" none none)]
     (List.mem_cons_self _ _) (by simp)⟩

end QuillVars
